import Mathlib

/-!
Verification of the conversation-history manager, retry loop, snapshot
export and emergency detector of the medical chatbot source file.
Each definition is a shallow embedding of the corresponding Python
construct in src/medical_bot.py.
-/

/-- One chat turn, embedding the Python dict with keys role and content
that ConversationManager.add appends to its history list. -/
structure Msg where
  role : String
  content : String
deriving DecidableEq, Repr

/-- State of the Python class ConversationManager: the max_turns bound and
the ordered history list. -/
structure ConversationManager where
  max_turns : Nat
  history : List Msg
deriving DecidableEq, Repr

/-- Python list slicing l[-k:] as used on line 82 of the source:
for k positive it keeps the last k elements (all of them when k exceeds
the length); for k = 0 the slice l[-0:] is l[0:], the whole list. -/
def pySliceLast (k : Nat) (l : List Msg) : List Msg :=
  if k = 0 then l else l.drop (l.length - k)

/-- ConversationManager.add: append a turn, then if the length exceeds
max_turns * 2 keep only the slice history[-(max_turns * 2):]. -/
def ConversationManager.add (s : ConversationManager) (role content : String) :
    ConversationManager :=
  let h := s.history ++ [{ role := role, content := content }]
  if h.length > s.max_turns * 2 then
    { s with history := pySliceLast (s.max_turns * 2) h }
  else
    { s with history := h }

/-- Run a sequence of add operations, in order, from a given store. -/
def appendAll (s : ConversationManager) (ts : List Msg) : ConversationManager :=
  ts.foldl (fun acc m => acc.add m.role m.content) s

/-- One part of a message in the wire format expected by the remote chat
API, the inner dict with key text built on line 95 of the source. -/
structure GeminiPart where
  text : String
deriving DecidableEq, Repr

/-- One message in the wire format: role plus a list of parts, the dict
appended to gemini_msgs on lines 93 to 96 of the source. -/
structure GeminiMsg where
  role : String
  parts : List GeminiPart
deriving DecidableEq, Repr

/-- The per-message conversion done inside the loop of
ConversationManager.to_gemini_history: the role becomes model when it was
assistant and user otherwise, and the content is wrapped as one part. -/
def Msg.toGemini (m : Msg) : GeminiMsg :=
  { role := if m.role = "assistant" then "model" else "user",
    parts := [{ text := m.content }] }

/-- ConversationManager.to_gemini_history: convert every history entry
except the last one, in order. Python history[:-1] is List.dropLast. -/
def ConversationManager.to_gemini_history (s : ConversationManager) : List GeminiMsg :=
  (s.history.dropLast).map Msg.toGemini

/-- The backward scan of ConversationManager.latest_user_message, applied
to the reversed history: first entry with role user wins. -/
def latestUserAux : List Msg → String
  | [] => ""
  | m :: rest => if m.role = "user" then m.content else latestUserAux rest

/-- ConversationManager.latest_user_message: scan the history from the end
and return the content of the first turn with role user, else empty. -/
def ConversationManager.latest_user_message (s : ConversationManager) : String :=
  latestUserAux s.history.reverse

/-- ConversationManager.clear: empty the history. -/
def ConversationManager.clear (s : ConversationManager) : ConversationManager :=
  { s with history := [] }

/-- The MODEL configuration constant of the source. -/
def MODEL : String := "gemini-2.5-flash"

/-- A structured JSON value, the shape json.dump serializes. -/
inductive JVal where
  | jstr : String → JVal
  | jarr : List JVal → JVal
  | jobj : List (String × JVal) → JVal

/-- The JSON object for one history entry inside the messages field of the
snapshot written by ConversationManager.save. -/
def Msg.toJson (m : Msg) : JVal :=
  JVal.jobj [("role", JVal.jstr m.role), ("content", JVal.jstr m.content)]

/-- ConversationManager.save: the JSON document written to the snapshot
file, with fields app, model, saved_at and messages. The timestamp is a
parameter standing for datetime.now().isoformat(); the file write itself
is outside the embedding. -/
def ConversationManager.save (s : ConversationManager) (savedAt : String) : JVal :=
  JVal.jobj
    [("app", JVal.jstr "MedAssist AI (Gemini)"),
     ("model", JVal.jstr MODEL),
     ("saved_at", JVal.jstr savedAt),
     ("messages", JVal.jarr (s.history.map Msg.toJson))]

/-- First-match lookup of a key in a JSON object field list. -/
def lookupField : List (String × JVal) → String → Option JVal
  | [], _ => none
  | (k, v) :: rest, key => if k = key then some v else lookupField rest key

/-- Read a field of a JSON object. -/
def JVal.getField : JVal → String → Option JVal
  | JVal.jobj fields, key => lookupField fields key
  | _, _ => none

/-- Reading one element of the messages field back as a turn. -/
def Msg.fromJson (j : JVal) : Option Msg :=
  match j.getField "role", j.getField "content" with
  | some (JVal.jstr r), some (JVal.jstr c) => some (Msg.mk r c)
  | _, _ => none

/-- Reading a list of message objects back as turns; any malformed entry
fails the whole read. -/
def decodeMsgs : List JVal → Option (List Msg)
  | [] => some []
  | j :: rest =>
    match Msg.fromJson j, decodeMsgs rest with
    | some m, some ms => some (m :: ms)
    | _, _ => none

/-- Reading back the messages field of a snapshot document. -/
def readMessages (j : JVal) : Option (List Msg) :=
  match j.getField "messages" with
  | some (JVal.jarr items) => decodeMsgs items
  | _ => none

/-- The EMERGENCY_KEYWORDS list of the source, lines 58 to 63. -/
def EMERGENCY_KEYWORDS : List String :=
  ["chest pain", "heart attack", "can\x27t breathe", "cannot breathe",
   "difficulty breathing", "stroke", "unconscious", "unresponsive",
   "severe bleeding", "overdose", "suicide", "kill myself",
   "not breathing", "seizure", "anaphylaxis"]

/-- Substring containment on character lists: true when the first list
occurs contiguously inside the second. -/
def listContainsSub (needle : List Char) : List Char → Bool
  | [] => needle.isEmpty
  | c :: rest => needle.isPrefixOf (c :: rest) || listContainsSub needle rest

/-- The Python operator needle in hay on strings. -/
def strContains (hay needle : String) : Bool :=
  listContainsSub needle.data hay.data

/-- The Python method lower(): lowercase every character. All strings the
source compares are ASCII, where this agrees with Python. -/
def strLower (s : String) : String :=
  String.mk (s.data.map Char.toLower)

/-- SafetyLayer.is_emergency: lowercase the input and test whether any
emergency keyword occurs in it as a substring. -/
def SafetyLayer.is_emergency (text : String) : Bool :=
  EMERGENCY_KEYWORDS.any (fun kw => strContains (strLower text) kw)

/-- Outcome of one remote call inside MedicalLLMClient.chat: either the
response text or the message of the raised exception. -/
inductive CallResult where
  | ok : String → CallResult
  | err : String → CallResult
deriving DecidableEq, Repr

/-- Terminal outcome of MedicalLLMClient.chat: the returned text or which
RuntimeError was raised. The exhausted outcome keeps the text of the last
underlying error, which the source interpolates into its message; the
fellThrough outcome is the final raise after the loop body. -/
inductive ChatResult where
  | success : String → ChatResult
  | rateLimited : ChatResult
  | authError : ChatResult
  | exhausted : String → ChatResult
  | fellThrough : ChatResult
deriving DecidableEq, Repr

/-- The rate-limit classification on line 150 of the source: the lowercased
error message contains quota or rate. -/
def isRateMsg (e : String) : Bool :=
  strContains (strLower e) "quota" || strContains (strLower e) "rate"

/-- The auth classification on line 152 of the source: the lowercased error
message contains api key, authentication or invalid. -/
def isAuthMsg (e : String) : Bool :=
  strContains (strLower e) "api key" || strContains (strLower e) "authentication"
    || strContains (strLower e) "invalid"

/-- The retry loop of MedicalLLMClient.chat. The oracle gives the outcome
of the remote call made on a given attempt number; remaining counts loop
iterations still allowed, attempt is the Python loop variable, and the
call count and the list of sleep durations are threaded through so the
theorems can speak about them. -/
def chatLoop (oracle : Nat → CallResult) (retries : Nat) :
    Nat → Nat → Nat → List Nat → ChatResult × Nat × List Nat
  | 0, _, calls, sleeps => (ChatResult.fellThrough, calls, sleeps)
  | remaining + 1, attempt, calls, sleeps =>
    match oracle attempt with
    | CallResult.ok t => (ChatResult.success t, calls + 1, sleeps)
    | CallResult.err e =>
      if isRateMsg e then (ChatResult.rateLimited, calls + 1, sleeps)
      else if isAuthMsg e then (ChatResult.authError, calls + 1, sleeps)
      else if attempt < retries then
        chatLoop oracle retries remaining (attempt + 1) (calls + 1)
          (sleeps ++ [2 * attempt])
      else (ChatResult.exhausted e, calls + 1, sleeps)

/-- MedicalLLMClient.chat for a given outcome oracle: run attempts 1 up to
retries and return the terminal outcome, the number of remote calls made
and the sleep durations in order. -/
def chat (oracle : Nat → CallResult) (retries : Nat) : ChatResult × Nat × List Nat :=
  chatLoop oracle retries retries 1 0 []

/-- Modelled from the claim wording of C2: remove from the history exactly
the most recent turn with role user, keeping everything else in order.
Defined by a backward scan over the reversed list. -/
def dropMostRecentUserAux : List Msg → List Msg
  | [] => []
  | m :: rest => if m.role = "user" then rest else m :: dropMostRecentUserAux rest

/-- Modelled from the claim wording of C2: the history with its most recent
user turn removed. -/
def dropMostRecentUserTurn (l : List Msg) : List Msg :=
  (dropMostRecentUserAux l.reverse).reverse

/-- Fixture: a store whose last turn is an assistant turn. -/
def cxStore : ConversationManager :=
  ⟨20, [Msg.mk "user" "A", Msg.mk "assistant" "B"]⟩

/-- Fixture: a store whose last turn is a user turn. -/
def wStoreUser : ConversationManager :=
  ⟨20, [Msg.mk "assistant" "W", Msg.mk "user" "Q"]⟩

/-- Fixture: three turns appended in order, for the pruning witness. -/
def wTurns : List Msg :=
  [Msg.mk "user" "u1", Msg.mk "assistant" "a1", Msg.mk "user" "u2"]

/-- Fixture: a small store with internal role vocabulary. -/
def wStorePair : ConversationManager :=
  ⟨20, [Msg.mk "user" "hi", Msg.mk "assistant" "hello"]⟩

/-- Fixture: a store whose latest user turn is followed by an assistant
turn. -/
def wStoreScan : ConversationManager :=
  ⟨20, [Msg.mk "user" "A", Msg.mk "assistant" "B", Msg.mk "user" "C",
        Msg.mk "assistant" "D"]⟩

/-- Fixture oracle: two transient failures, then a success. -/
def oracleFFS : Nat → CallResult := fun n =>
  if n ≤ 2 then CallResult.err "connection timeout" else CallResult.ok "All good"

/-- Fixture oracle: every call fails with an auth-classified message. -/
def oracleAuth : Nat → CallResult := fun _ => CallResult.err "Invalid API key"

/-- Fixture oracle: every call fails with a transient message. -/
def oracleTrans : Nat → CallResult := fun _ => CallResult.err "connection timeout"

/-- Fixture oracle: every call fails with a message matching both the
rate-limit and the auth patterns. -/
def oracleBoth : Nat → CallResult := fun _ =>
  CallResult.err "rate limit: invalid api key"

theorem add_max_turns (s : ConversationManager) (role content : String) :
    (s.add role content).max_turns = s.max_turns := by
  unfold ConversationManager.add
  dsimp only
  split <;> rfl

theorem appendAll_max_turns (s : ConversationManager) (ts : List Msg) :
    (appendAll s ts).max_turns = s.max_turns := by
  induction ts generalizing s with
  | nil => rfl
  | cons m rest ih =>
      simp only [appendAll, List.foldl_cons] at *
      rw [ih, add_max_turns]

theorem appendAll_concat (s : ConversationManager) (ts : List Msg) (t : Msg) :
    appendAll s (ts ++ [t]) = (appendAll s ts).add t.role t.content := by
  simp [appendAll, List.foldl_append]

theorem add_eq (mt : Nat) (hist : List Msg) (role content : String) :
    ConversationManager.add ⟨mt, hist⟩ role content =
      ⟨mt, if (hist ++ [Msg.mk role content]).length > mt * 2
           then pySliceLast (mt * 2) (hist ++ [Msg.mk role content])
           else hist ++ [Msg.mk role content]⟩ := by
  unfold ConversationManager.add
  dsimp only
  split <;> rfl

/-- The exact content of the history after any sequence of appends from an
empty store, when the bound is at least one: the last 2 * mt appended
turns (all of them while fewer were appended). -/
theorem appendAll_history (mt : Nat) (hmt : 1 ≤ mt) (ts : List Msg) :
    (appendAll { max_turns := mt, history := [] } ts).history
      = ts.drop (ts.length - 2 * mt) := by
  induction ts using List.reverseRecOn with
  | nil => simp [appendAll]
  | append_singleton l t ih =>
      have h1 := appendAll_max_turns ⟨mt, []⟩ l
      have hs : appendAll ⟨mt, []⟩ l = ⟨mt, l.drop (l.length - 2 * mt)⟩ := by
        cases h2 : appendAll ⟨mt, []⟩ l with
        | mk a b =>
            rw [h2] at h1 ih
            dsimp only at h1 ih
            subst h1
            rw [ih]
      rw [appendAll_concat, hs, add_eq]
      have hteta : ({ role := t.role, content := t.content } : Msg) = t := rfl
      rw [hteta]
      dsimp only
      rcases Nat.lt_or_ge l.length (2 * mt) with hlt | hge
      · have h0 : l.length - 2 * mt = 0 := by omega
        rw [h0, List.drop_zero]
        rw [if_neg (by
          simp only [List.length_append, List.length_cons, List.length_nil]
          omega)]
        have hz : (l ++ [t]).length - 2 * mt = 0 := by
          simp only [List.length_append, List.length_cons, List.length_nil]
          omega
        rw [hz, List.drop_zero]
      · have hdl : (l.drop (l.length - 2 * mt)).length = 2 * mt := by
          rw [List.length_drop]; omega
        rw [if_pos (by
          simp only [List.length_append, List.length_cons, List.length_nil, hdl]
          omega)]
        unfold pySliceLast
        rw [if_neg (by omega : ¬ mt * 2 = 0)]
        have hlen2 : (l.drop (l.length - 2 * mt) ++ [t]).length - mt * 2 = 1 := by
          simp only [List.length_append, List.length_cons, List.length_nil, hdl]
          omega
        rw [hlen2, List.drop_append_of_le_length (by omega), List.drop_drop]
        have harith : l.length - 2 * mt + 1 = (l ++ [t]).length - 2 * mt := by
          simp only [List.length_append, List.length_cons, List.length_nil]
          omega
        rw [harith]
        rw [List.drop_append_of_le_length (by
          simp only [List.length_append, List.length_cons, List.length_nil]
          omega)]

/-- Claim C1 as universally stated is false at the bound zero: the Python
slice history[-(0):] is history[0:], the whole list, so a store created
with max_turns equal to zero never prunes and one append already exceeds
the claimed bound of zero retained turns. -/
theorem prune_bound_fails_at_zero :
    ¬ (((ConversationManager.mk 0 []).add "user" "hi").history.length ≤ 2 * 0) := by
  decide

/-- Claim C1, amended to bounds of at least one exchange: after any
sequence of appends into an initially empty store, the history is exactly
the suffix of the appended sequence consisting of its last 2 * max_turns
elements, hence its length never exceeds 2 * max_turns, the oldest turns
are the ones dropped, and relative order is preserved. Every prefix of an
append sequence is itself an append sequence, so this bounds the store
after every intermediate append as well. -/
theorem conversation_prune_bound_suffix (mt : Nat) (hmt : 1 ≤ mt) (ts : List Msg) :
    (appendAll ⟨mt, []⟩ ts).history = ts.drop (ts.length - 2 * mt) ∧
    (appendAll ⟨mt, []⟩ ts).history.length ≤ 2 * mt ∧
    (appendAll ⟨mt, []⟩ ts).history <:+ ts := by
  refine ⟨appendAll_history mt hmt ts, ?_, ?_⟩
  · rw [appendAll_history mt hmt ts, List.length_drop]
    omega
  · rw [appendAll_history mt hmt ts]
    exact List.drop_suffix _ _

/-- Witness for the amended claim C1 at max_turns one and three appended
turns: the two oldest of the three turns beyond the bound are dropped. -/
theorem conversation_prune_bound_suffix_witness :
    1 ≤ 1 ∧
    ((appendAll ⟨1, []⟩ wTurns).history = wTurns.drop (wTurns.length - 2 * 1) ∧
     (appendAll ⟨1, []⟩ wTurns).history.length ≤ 2 * 1 ∧
     (appendAll ⟨1, []⟩ wTurns).history <:+ wTurns) :=
  ⟨by decide, conversation_prune_bound_suffix 1 (by decide) wTurns⟩

theorem latestUserAux_of_no_user (l : List Msg)
    (h : ∀ m ∈ l, m.role ≠ "user") : latestUserAux l = "" := by
  induction l with
  | nil => rfl
  | cons m rest ih =>
      rw [latestUserAux, if_neg (h m (List.mem_cons_self m rest))]
      exact ih (fun x hx => h x (List.mem_cons_of_mem m hx))

theorem latestUserAux_append_of_no_user (l1 l2 : List Msg)
    (h : ∀ m ∈ l1, m.role ≠ "user") :
    latestUserAux (l1 ++ l2) = latestUserAux l2 := by
  induction l1 with
  | nil => rfl
  | cons m rest ih =>
      rw [List.cons_append, latestUserAux,
        if_neg (h m (List.mem_cons_self m rest))]
      exact ih (fun x hx => h x (List.mem_cons_of_mem m hx))

theorem view_eq_spec_of_last_user (l : List Msg)
    (h : Option.map Msg.role l.getLast? = some "user") :
    l.dropLast.map Msg.toGemini = (dropMostRecentUserTurn l).map Msg.toGemini := by
  induction l using List.reverseRecOn with
  | nil => simp at h
  | append_singleton l' t ih =>
      clear ih
      rw [List.getLast?_concat] at h
      rw [Option.map_some'] at h
      have ht : t.role = "user" := Option.some.inj h
      unfold dropMostRecentUserTurn
      rw [List.reverse_append]
      simp only [List.reverse_cons, List.reverse_nil, List.nil_append,
        List.singleton_append]
      rw [List.dropLast_concat]
      simp only [dropMostRecentUserAux]
      rw [if_pos ht, List.reverse_reverse]

/-- Claim C2 as stated is false: the history view always omits the last
stored turn whatever its role. On a store whose last turn is an assistant
turn, the view keeps the most recent user turn and omits the assistant
turn instead of it. -/
theorem history_view_omits_last_not_user :
    cxStore.to_gemini_history
      ≠ (dropMostRecentUserTurn cxStore.history).map Msg.toGemini := by
  decide

/-- Claim C2, amended: whenever the last stored turn is a user turn, which
is the state in which the view is built for a remote call, the history
view contains exactly every stored turn except the most recent user turn,
in order. -/
theorem history_view_omits_live_prompt (s : ConversationManager)
    (h : Option.map Msg.role s.history.getLast? = some "user") :
    s.to_gemini_history = (dropMostRecentUserTurn s.history).map Msg.toGemini :=
  view_eq_spec_of_last_user s.history h

/-- Witness for the amended claim C2 on a concrete store ending in a user
turn. -/
theorem history_view_omits_live_prompt_witness :
    Option.map Msg.role wStoreUser.history.getLast? = some "user" ∧
    wStoreUser.to_gemini_history
      = (dropMostRecentUserTurn wStoreUser.history).map Msg.toGemini :=
  ⟨by decide, history_view_omits_live_prompt wStoreUser (by decide)⟩

/-- Claim C3: for a non-empty store the history view has exactly length
minus one entries, entry i is built from stored turn i, its content is
wrapped as a single text part, assistant maps to model, user maps to user,
and every emitted role is user or model. -/
theorem history_view_shape (s : ConversationManager) (hne : s.history ≠ []) :
    s.to_gemini_history.length = s.history.length - 1 ∧
    (∀ g ∈ s.to_gemini_history, g.role = "user" ∨ g.role = "model") ∧
    ∀ (i : Nat) (hi : i < s.to_gemini_history.length)
      (hj : i < s.history.length),
      (s.to_gemini_history.get ⟨i, hi⟩).parts
          = [{ text := (s.history.get ⟨i, hj⟩).content }] ∧
      ((s.history.get ⟨i, hj⟩).role = "assistant" →
          (s.to_gemini_history.get ⟨i, hi⟩).role = "model") ∧
      ((s.history.get ⟨i, hj⟩).role = "user" →
          (s.to_gemini_history.get ⟨i, hi⟩).role = "user") := by
  refine ⟨?_, ?_, ?_⟩
  · simp [ConversationManager.to_gemini_history]
  · intro g hg
    rcases List.mem_map.mp hg with ⟨m, _, rfl⟩
    by_cases hm : m.role = "assistant" <;> simp [Msg.toGemini, hm]
  · intro i hi hj
    have hi2 : i < s.history.dropLast.length := by
      simpa [ConversationManager.to_gemini_history] using hi
    have hget : s.to_gemini_history.get ⟨i, hi⟩
        = Msg.toGemini (s.history.get ⟨i, hj⟩) := by
      simp only [ConversationManager.to_gemini_history, List.get_eq_getElem,
        List.getElem_map, List.getElem_dropLast]
    rw [hget]
    refine ⟨rfl, ?_, ?_⟩ <;> intro hr <;>
      simp only [List.get_eq_getElem] at hr <;> simp [Msg.toGemini, hr]

/-- Witness for claim C3 on a concrete two-turn store. -/
theorem history_view_shape_witness :
    wStoreUser.history ≠ [] ∧
    (wStoreUser.to_gemini_history.length = wStoreUser.history.length - 1 ∧
     (∀ g ∈ wStoreUser.to_gemini_history, g.role = "user" ∨ g.role = "model") ∧
     ∀ (i : Nat) (hi : i < wStoreUser.to_gemini_history.length)
       (hj : i < wStoreUser.history.length),
       (wStoreUser.to_gemini_history.get ⟨i, hi⟩).parts
           = [{ text := (wStoreUser.history.get ⟨i, hj⟩).content }] ∧
       ((wStoreUser.history.get ⟨i, hj⟩).role = "assistant" →
           (wStoreUser.to_gemini_history.get ⟨i, hi⟩).role = "model") ∧
       ((wStoreUser.history.get ⟨i, hj⟩).role = "user" →
           (wStoreUser.to_gemini_history.get ⟨i, hi⟩).role = "user")) :=
  ⟨by decide, history_view_shape wStoreUser (by decide)⟩

/-- Claim C4: latest_user_message returns the empty string when no user
turn is stored; it returns the content of the most recently appended user
turn even when assistant turns follow it; and it is a pure function of the
stored history, so repeated calls without intervening appends agree. -/
theorem latest_user_message_spec (s : ConversationManager) :
    ((∀ m ∈ s.history, m.role ≠ "user") → s.latest_user_message = "") ∧
    (∀ (pre : List Msg) (c : String) (post : List Msg),
      s.history = pre ++ Msg.mk "user" c :: post →
      (∀ m ∈ post, m.role ≠ "user") →
      s.latest_user_message = c) ∧
    ∀ (t : ConversationManager), s.history = t.history →
      s.latest_user_message = t.latest_user_message := by
  refine ⟨?_, ?_, ?_⟩
  · intro h
    unfold ConversationManager.latest_user_message
    exact latestUserAux_of_no_user _ (fun m hm => h m (List.mem_reverse.mp hm))
  · intro pre c post hsplit hpost
    unfold ConversationManager.latest_user_message
    rw [hsplit, List.reverse_append, List.reverse_cons, List.append_assoc]
    rw [latestUserAux_append_of_no_user _ _
      (fun m hm => hpost m (List.mem_reverse.mp hm))]
    rw [List.singleton_append, latestUserAux, if_pos rfl]
  · intro t h
    unfold ConversationManager.latest_user_message
    rw [h]

/-- Witness for claim C4: in a store whose latest user turn C is followed
by an assistant turn, the scan still returns C. -/
theorem latest_user_message_spec_witness :
    wStoreScan.latest_user_message = "C" :=
  (latest_user_message_spec wStoreScan).2.1
    [Msg.mk "user" "A", Msg.mk "assistant" "B"] "C" [Msg.mk "assistant" "D"]
    rfl (by decide)

theorem chatLoop_calls_le (oracle : Nat → CallResult) (retries : Nat) :
    ∀ (remaining attempt calls : Nat) (sleeps : List Nat),
      (chatLoop oracle retries remaining attempt calls sleeps).2.1
        ≤ calls + remaining := by
  intro remaining
  induction remaining with
  | zero =>
      intro attempt calls sleeps
      simp [chatLoop]
  | succ r ih =>
      intro attempt calls sleeps
      rw [chatLoop]
      cases h : oracle attempt with
      | ok t =>
          dsimp only
          omega
      | err e =>
          dsimp only
          split
          · dsimp only; omega
          · split
            · dsimp only; omega
            · split
              · exact le_trans
                  (ih (attempt + 1) (calls + 1) (sleeps ++ [2 * attempt]))
                  (by omega)
              · dsimp only; omega

theorem chatLoop_skip (oracle : Nat → CallResult) (retries k : Nat) :
    ∀ (remaining attempt calls : Nat) (sleeps : List Nat),
      attempt + remaining = retries + 1 → attempt ≤ k → k ≤ retries →
      (∀ j, attempt ≤ j → j < k → ∃ e, oracle j = CallResult.err e ∧
        isRateMsg e = false ∧ isAuthMsg e = false) →
      ∃ sleeps2, chatLoop oracle retries remaining attempt calls sleeps
        = chatLoop oracle retries (retries + 1 - k) k (calls + (k - attempt))
            sleeps2 := by
  intro remaining
  induction remaining with
  | zero =>
      intro attempt calls sleeps hinv h1 h2 hpre
      exact (by omega : False).elim
  | succ r ih =>
      intro attempt calls sleeps hinv h1 h2 hpre
      rcases Nat.eq_or_lt_of_le h1 with heq | hlt
      · subst heq
        refine ⟨sleeps, ?_⟩
        have e1 : retries + 1 - attempt = r + 1 := by omega
        have e2 : calls + (attempt - attempt) = calls := by omega
        rw [e1, e2]
      · obtain ⟨e, he, hre, hae⟩ := hpre attempt (Nat.le_refl _) hlt
        have hlt2 : attempt < retries := by omega
        have hre2 : ¬ (isRateMsg e = true) := by simp [hre]
        have hae2 : ¬ (isAuthMsg e = true) := by simp [hae]
        obtain ⟨s2, hs2⟩ := ih (attempt + 1) (calls + 1) (sleeps ++ [2 * attempt])
          (by omega) hlt h2 (fun j hj1 hj2 => hpre j (by omega) hj2)
        refine ⟨s2, ?_⟩
        rw [chatLoop]
        simp only [he]
        rw [if_neg hre2, if_neg hae2, if_pos hlt2, hs2]
        have e3 : calls + 1 + (k - (attempt + 1)) = calls + (k - attempt) := by
          omega
        rw [e3]

theorem chat_reaches (oracle : Nat → CallResult) (retries k : Nat)
    (hk1 : 1 ≤ k) (hk2 : k ≤ retries)
    (hpre : ∀ j, 1 ≤ j → j < k → ∃ e, oracle j = CallResult.err e ∧
      isRateMsg e = false ∧ isAuthMsg e = false) :
    ∃ sleeps2, chat oracle retries
      = chatLoop oracle retries (retries + 1 - k) k (k - 1) sleeps2 := by
  obtain ⟨s2, hs2⟩ :=
    chatLoop_skip oracle retries k retries 1 0 [] (by omega) hk1 hk2 hpre
  refine ⟨s2, ?_⟩
  unfold chat
  rw [hs2]
  have e1 : 0 + (k - 1) = k - 1 := by omega
  rw [e1]

/-- Claim C5: for every outcome oracle, chat makes at most max_retries
remote calls; and when the first k minus one attempts fail transiently and
attempt k succeeds within the retry budget, chat returns the text of that
first successful call having made exactly k calls, so nothing follows a
success. -/
theorem chat_success_first (oracle : Nat → CallResult) (retries k : Nat)
    (t : String) (hk1 : 1 ≤ k) (hk2 : k ≤ retries)
    (hpre : ∀ j, 1 ≤ j → j < k → ∃ e, oracle j = CallResult.err e ∧
      isRateMsg e = false ∧ isAuthMsg e = false)
    (hok : oracle k = CallResult.ok t) :
    (chat oracle retries).1 = ChatResult.success t ∧
    (chat oracle retries).2.1 = k ∧
    ∀ (o : Nat → CallResult) (r : Nat), (chat o r).2.1 ≤ r := by
  obtain ⟨s2, hs2⟩ := chat_reaches oracle retries k hk1 hk2 hpre
  have hstep : retries + 1 - k = (retries - k) + 1 := by omega
  refine ⟨?_, ?_, ?_⟩
  · rw [hs2, hstep, chatLoop]
    simp [hok]
  · rw [hs2, hstep, chatLoop]
    simp [hok]
    omega
  · intro o r
    have h := chatLoop_calls_le o r r 1 0 []
    simpa [chat] using h

/-- Witness for claim C5: the oracle failing twice with a generic
transient error and succeeding on the third attempt, with a retry budget
of three, yields the successful text after exactly three calls. -/
theorem chat_success_first_witness :
    (chat oracleFFS 3).1 = ChatResult.success "All good" ∧
    (chat oracleFFS 3).2.1 = 3 ∧
    ∀ (o : Nat → CallResult) (r : Nat), (chat o r).2.1 ≤ r :=
  chat_success_first oracleFFS 3 3 "All good" (by decide) (by decide)
    (fun j hj1 hj2 => ⟨"connection timeout", by
        have hj : j ≤ 2 := by omega
        simp [oracleFFS, hj], by decide, by decide⟩)
    (by decide)

/-- Claim C6: when the attempts before k are transient and attempt k fails
with a message matching the quota or rate pattern, chat stops at once with
the rate-limit error after exactly k calls, whatever budget remains; and
when the message matches the auth pattern but not the rate pattern, chat
stops at once with the auth error after exactly k calls. -/
theorem chat_permanent_classification (oracle : Nat → CallResult)
    (retries k : Nat) (e : String) (hk1 : 1 ≤ k) (hk2 : k ≤ retries)
    (hpre : ∀ j, 1 ≤ j → j < k → ∃ e2, oracle j = CallResult.err e2 ∧
      isRateMsg e2 = false ∧ isAuthMsg e2 = false)
    (herr : oracle k = CallResult.err e) :
    (isRateMsg e = true → (chat oracle retries).1 = ChatResult.rateLimited ∧
      (chat oracle retries).2.1 = k) ∧
    (isRateMsg e = false → isAuthMsg e = true →
      (chat oracle retries).1 = ChatResult.authError ∧
      (chat oracle retries).2.1 = k) := by
  obtain ⟨s2, hs2⟩ := chat_reaches oracle retries k hk1 hk2 hpre
  have hstep : retries + 1 - k = (retries - k) + 1 := by omega
  constructor
  · intro hrate
    constructor
    · rw [hs2, hstep, chatLoop]
      simp [herr, hrate]
    · rw [hs2, hstep, chatLoop]
      simp [herr, hrate]
      omega
  · intro hrate hauth
    constructor
    · rw [hs2, hstep, chatLoop]
      simp [herr, hrate, hauth]
    · rw [hs2, hstep, chatLoop]
      simp [herr, hrate, hauth]
      omega

/-- Witness for claim C6, the auth half: one failure whose message
contains invalid API key makes chat stop with the auth error after exactly
one call even though two retries remained. -/
theorem chat_permanent_classification_witness :
    (chat oracleAuth 3).1 = ChatResult.authError ∧
    (chat oracleAuth 3).2.1 = 1 :=
  (chat_permanent_classification oracleAuth 3 1 "Invalid API key"
    (by decide) (by decide)
    (fun j hj1 hj2 => (by omega : False).elim) rfl).2 (by decide) (by decide)

theorem chatLoop_all_transient (oracle : Nat → CallResult) (retries : Nat) :
    ∀ (remaining attempt calls : Nat) (sleeps : List Nat),
      1 ≤ remaining → attempt + remaining = retries + 1 →
      (∀ j, attempt ≤ j → j ≤ retries → ∃ e, oracle j = CallResult.err e ∧
        isRateMsg e = false ∧ isAuthMsg e = false) →
      ∃ e, oracle retries = CallResult.err e ∧
        chatLoop oracle retries remaining attempt calls sleeps
          = (ChatResult.exhausted e, calls + remaining,
             sleeps ++ (List.range (remaining - 1)).map
               (fun i => 2 * (attempt + i))) := by
  intro remaining
  induction remaining with
  | zero =>
      intro attempt calls sleeps h0 hinv hall
      exact (by omega : False).elim
  | succ r ih =>
      intro attempt calls sleeps h0 hinv hall
      have hatt : attempt ≤ retries := by omega
      obtain ⟨e, he, hre, hae⟩ := hall attempt (Nat.le_refl _) hatt
      have hre2 : ¬ (isRateMsg e = true) := by simp [hre]
      have hae2 : ¬ (isAuthMsg e = true) := by simp [hae]
      cases Nat.eq_zero_or_pos r with
      | inl hr0 =>
          subst hr0
          have hak : attempt = retries := by omega
          refine ⟨e, by rw [← hak]; exact he, ?_⟩
          have hnl : ¬ attempt < retries := by omega
          rw [chatLoop]
          simp only [he]
          rw [if_neg hre2, if_neg hae2, if_neg hnl]
          simp
      | inr hrpos =>
          have hlt2 : attempt < retries := by omega
          obtain ⟨e2, he2, hrun⟩ :=
            ih (attempt + 1) (calls + 1) (sleeps ++ [2 * attempt])
              (by omega) (by omega) (fun j hj1 hj2 => hall j (by omega) hj2)
          refine ⟨e2, he2, ?_⟩
          rw [chatLoop]
          simp only [he]
          rw [if_neg hre2, if_neg hae2, if_pos hlt2, hrun]
          obtain ⟨r2, rfl⟩ : ∃ r2, r = r2 + 1 := ⟨r - 1, by omega⟩
          have ec : calls + 1 + (r2 + 1) = calls + (r2 + 1 + 1) := by omega
          have esl : (sleeps ++ [2 * attempt])
                ++ (List.range (r2 + 1 - 1)).map (fun i => 2 * (attempt + 1 + i))
              = sleeps ++ (List.range (r2 + 1 + 1 - 1)).map
                  (fun i => 2 * (attempt + i)) := by
            have h1 : r2 + 1 - 1 = r2 := by omega
            have h2 : r2 + 1 + 1 - 1 = r2 + 1 := by omega
            rw [h1, h2, List.append_assoc]
            congr 1
            rw [List.range_succ_eq_map, List.map_cons, List.map_map,
              List.singleton_append]
            simp only [List.cons.injEq]
            constructor
            · omega
            · refine List.map_congr_left ?_
              intro a ha
              simp only [Function.comp_apply]
              omega
          rw [ec, esl]

/-- Claim C7: when every attempt up to the retry ceiling fails with a
transient error, each non-final failing attempt is followed by a sleep of
twice its attempt number, and the final failing attempt makes chat stop
with the exhausted-retries error carrying the text of the last underlying
error, after exactly max_retries calls. -/
theorem chat_transient_exhaustion (oracle : Nat → CallResult) (retries : Nat)
    (hr : 1 ≤ retries)
    (hall : ∀ j, 1 ≤ j → j ≤ retries → ∃ e, oracle j = CallResult.err e ∧
      isRateMsg e = false ∧ isAuthMsg e = false) :
    ∃ e, oracle retries = CallResult.err e ∧
      chat oracle retries
        = (ChatResult.exhausted e, retries,
           (List.range (retries - 1)).map (fun i => 2 * (1 + i))) := by
  obtain ⟨e, he, hrun⟩ := chatLoop_all_transient oracle retries retries 1 0 []
    (by omega) (by omega) hall
  refine ⟨e, he, ?_⟩
  unfold chat
  rw [hrun]
  have e1 : 0 + retries = retries := by omega
  rw [e1, List.nil_append]

/-- Witness for claim C7: three transient failures with a budget of three
give the exhausted-retries outcome carrying the last error text, after
three calls with sleeps of two then four time units. -/
theorem chat_transient_exhaustion_witness :
    ∃ e, oracleTrans 3 = CallResult.err e ∧
      chat oracleTrans 3
        = (ChatResult.exhausted e, 3,
           (List.range (3 - 1)).map (fun i => 2 * (1 + i))) :=
  chat_transient_exhaustion oracleTrans 3 (by decide)
    (fun j hj1 hj2 => ⟨"connection timeout", rfl, by decide, by decide⟩)

/-- Claim C10: a failure whose message matches both the rate pattern and
the auth pattern is classified as the rate-limit error, because the quota
or rate check runs before the auth check. -/
theorem chat_rate_precedence (oracle : Nat → CallResult) (retries k : Nat)
    (e : String) (hk1 : 1 ≤ k) (hk2 : k ≤ retries)
    (hpre : ∀ j, 1 ≤ j → j < k → ∃ e2, oracle j = CallResult.err e2 ∧
      isRateMsg e2 = false ∧ isAuthMsg e2 = false)
    (herr : oracle k = CallResult.err e)
    (hrate : isRateMsg e = true) (hauth : isAuthMsg e = true) :
    (chat oracle retries).1 = ChatResult.rateLimited ∧
    (chat oracle retries).1 ≠ ChatResult.authError := by
  obtain ⟨s2, hs2⟩ := chat_reaches oracle retries k hk1 hk2 hpre
  have hstep : retries + 1 - k = (retries - k) + 1 := by omega
  have h1 : (chat oracle retries).1 = ChatResult.rateLimited := by
    rw [hs2, hstep, chatLoop]
    simp [herr, hrate]
  refine ⟨h1, ?_⟩
  rw [h1]
  simp

/-- Witness for claim C10: a message containing both rate and invalid api
key is classified as the rate-limit error, not the auth error. -/
theorem chat_rate_precedence_witness :
    isRateMsg "rate limit: invalid api key" = true ∧
    isAuthMsg "rate limit: invalid api key" = true ∧
    (chat oracleBoth 3).1 = ChatResult.rateLimited ∧
    (chat oracleBoth 3).1 ≠ ChatResult.authError :=
  ⟨by decide, by decide,
    chat_rate_precedence oracleBoth 3 1 "rate limit: invalid api key"
      (by decide) (by decide) (fun j hj1 hj2 => (by omega : False).elim) rfl
      (by decide) (by decide)⟩

theorem fromJson_toJson (m : Msg) : Msg.fromJson (Msg.toJson m) = some m := rfl

theorem decodeMsgs_map_toJson (l : List Msg) :
    decodeMsgs (l.map Msg.toJson) = some l := by
  induction l with
  | nil => rfl
  | cons m rest ih =>
      rw [List.map_cons, decodeMsgs, fromJson_toJson, ih]

/-- Claim C8: reading the messages field back from the snapshot document
exported by save reproduces the stored turns exactly, same count, same
role and content pairs, same order, and the roles are the internal user
and assistant vocabulary, not the wire vocabulary. -/
theorem save_round_trip (s : ConversationManager) (savedAt : String)
    (hroles : ∀ m ∈ s.history, m.role = "user" ∨ m.role = "assistant") :
    readMessages (s.save savedAt) = some s.history ∧
    ∀ l, readMessages (s.save savedAt) = some l →
      l.length = s.history.length ∧
      ∀ m ∈ l, m.role = "user" ∨ m.role = "assistant" := by
  have hrm : readMessages (s.save savedAt)
      = decodeMsgs (s.history.map Msg.toJson) := rfl
  rw [hrm, decodeMsgs_map_toJson]
  refine ⟨rfl, ?_⟩
  intro l hl
  have hle : s.history = l := Option.some.inj hl
  subst hle
  exact ⟨rfl, hroles⟩

/-- Witness for claim C8 on a concrete two-turn store. -/
theorem save_round_trip_witness :
    (∀ m ∈ wStorePair.history, m.role = "user" ∨ m.role = "assistant") ∧
    (readMessages (wStorePair.save "2026-10-12T00:00:00") = some wStorePair.history ∧
     ∀ l, readMessages (wStorePair.save "2026-10-12T00:00:00") = some l →
       l.length = wStorePair.history.length ∧
       ∀ m ∈ l, m.role = "user" ∨ m.role = "assistant") :=
  ⟨by decide, save_round_trip wStorePair "2026-10-12T00:00:00" (by decide)⟩

theorem listContainsSub_iff (needle hay : List Char) :
    listContainsSub needle hay = true ↔ needle <:+: hay := by
  induction hay with
  | nil =>
      simp [listContainsSub, List.isEmpty_iff, List.infix_nil]
  | cons c rest ih =>
      rw [listContainsSub]
      simp [Bool.or_eq_true, ih, List.infix_cons_iff]

/-- Claim C9: is_emergency is a pure boolean function of its input string,
true exactly when some phrase of the fixed emergency keyword list occurs
as a substring of the lowercased input; in particular it is true on the
chest pain input and false on the mild headache input. -/
theorem is_emergency_spec :
    (∀ t : String, SafetyLayer.is_emergency t = true ↔
      ∃ kw ∈ EMERGENCY_KEYWORDS, kw.data <:+: (strLower t).data) ∧
    SafetyLayer.is_emergency "I have chest pain and can\x27t breathe" = true ∧
    SafetyLayer.is_emergency "I have a mild headache" = false := by
  refine ⟨?_, by decide, by decide⟩
  intro t
  simp only [SafetyLayer.is_emergency, List.any_eq_true, strContains,
    listContainsSub_iff]

/-- Witness for claim C9: its characterization applied at a concrete
keyword and input. -/
theorem is_emergency_spec_witness :
    SafetyLayer.is_emergency "Warning signs of stroke" = true :=
  (is_emergency_spec.1 "Warning signs of stroke").mpr
    ⟨"stroke", by decide, by decide⟩
